import Mathlib

/-!
Verification of the book-spine detection ("advanced OCR") pipeline.

The definitions below are a shallow embedding of the `AdvancedOCR` class:
`determineOrientation`, `groupWordsIntoRegions`, `detectBookSpines` and
`cleanBookTitle`.  JavaScript numbers are modelled as rationals; the one
irrational operation (`Math.sqrt` inside a `<` comparison) is modelled by
the equivalent squared comparison, with a bridging lemma against
`Real.sqrt` proving the two agree.

The imperative `used`-index loops of `groupWordsIntoRegions` and
`detectBookSpines` compare every later candidate against the fields of the
*seed* element only (never against the partially merged aggregate), so the
set of indices merged into the group seeded at `i` is exactly the set of
still-unused later indices whose element satisfies a predicate of the seed
and the candidate alone.  The loops are therefore embedded as a recursion
that splits the remaining list with `List.filter` on that predicate: the
matching elements (in scan order) are merged into the seed's group, the
rest (in scan order) are processed recursively.
-/

/- The rational arithmetic of the Batteries `Rat` is hidden behind
`irreducible` definitions, which blocks `decide` on concrete inputs;
restore ordinary unfolding inside this development so that concrete runs
of the pipeline can be evaluated by `decide`. -/
attribute [local semireducible] Rat.mul Rat.add Rat.sub Rat.inv Rat.ofScientific

namespace AdvancedOCR

/-- Axis-aligned bounding box `{x0, y0, x1, y1}` in image pixel
coordinates. -/
structure BBox where
  x0 : ℚ
  y0 : ℚ
  x1 : ℚ
  y1 : ℚ
deriving DecidableEq

/-- Horizontal center `(x0 + x1) / 2` of a box. -/
def BBox.centerX (b : BBox) : ℚ := (b.x0 + b.x1) / 2

/-- Vertical center `(y0 + y1) / 2` of a box. -/
def BBox.centerY (b : BBox) : ℚ := (b.y0 + b.y1) / 2

/-- Box height `y1 - y0`. -/
def BBox.height (b : BBox) : ℚ := b.y1 - b.y0

/-- A recognized word: text, confidence and bounding box. -/
structure Word where
  text : String
  confidence : ℚ
  bbox : BBox
deriving DecidableEq

/-- The `'horizontal' | 'vertical'` orientation tag. -/
inductive Orient where
  | horizontal
  | vertical
deriving DecidableEq

/-- A cluster of nearby words (`TextRegion` of the source). -/
structure TextRegion where
  text : String
  confidence : ℚ
  bbox : BBox
  orient : Orient
  words : List Word
deriving DecidableEq

/-- A book-spine candidate (`BookSpine` of the source). -/
structure BookSpine where
  title : String
  confidence : ℚ
  bbox : BBox
  orient : Orient
  textRegions : List TextRegion
deriving DecidableEq

/-- Per-word contribution of `determineOrientation`'s loop body: the pair
(added to horizontal score, added to vertical score).  `width > height*1.5`
adds the confidence to the horizontal score, `else if height > width*1.5`
adds it to the vertical score, otherwise neither. -/
def wordScore (w : Word) : ℚ × ℚ :=
  let width := w.bbox.x1 - w.bbox.x0
  let height := w.bbox.y1 - w.bbox.y0
  if width > height * 1.5 then (w.confidence, 0)
  else if height > width * 1.5 then (0, w.confidence)
  else (0, 0)

/-- Loop body of `determineOrientation`: accumulate the two scores. -/
def orientStep (p : ℚ × ℚ) (w : Word) : ℚ × ℚ :=
  let width := w.bbox.x1 - w.bbox.x0
  let height := w.bbox.y1 - w.bbox.y0
  if width > height * 1.5 then (p.1 + w.confidence, p.2)
  else if height > width * 1.5 then (p.1, p.2 + w.confidence)
  else p

/-- `determineOrientation` (source lines 439-457): empty input returns
`horizontal`; otherwise sum the per-word scores and return `horizontal`
exactly when the horizontal score is strictly greater. -/
def determineOrient (words : List Word) : Orient :=
  if words.isEmpty then .horizontal
  else
    let s := words.foldl orientStep (0, 0)
    if s.1 > s.2 then .horizontal else .vertical

/-- Models the JavaScript comparison `Math.sqrt s < t` (for `0 ≤ s`)
without leaving `ℚ`; `sqrtLtB_iff` below proves it equivalent to the
comparison on real numbers. -/
def sqrtLtB (s t : ℚ) : Bool :=
  decide (0 < t) && decide (s < t * t)

/-- `sqrtLtB s t` is the comparison `Real.sqrt s < t`. -/
theorem sqrtLtB_iff (s t : ℚ) :
    sqrtLtB s t = true ↔ Real.sqrt (s : ℝ) < (t : ℝ) := by
  unfold sqrtLtB
  rcases le_or_lt t 0 with h | h
  · constructor
    · intro hb
      simp only [Bool.and_eq_true, decide_eq_true_eq] at hb
      exact absurd hb.1 (not_lt.mpr h)
    · intro hr
      exfalso
      have h0 : (t : ℝ) ≤ 0 := by exact_mod_cast h
      exact absurd (lt_of_le_of_lt (Real.sqrt_nonneg _) hr) (not_lt.mpr h0)
  · have ht : (0 : ℝ) < (t : ℝ) := by exact_mod_cast h
    rw [Real.sqrt_lt' ht]
    simp only [Bool.and_eq_true, decide_eq_true_eq]
    constructor
    · intro hb
      have : (s : ℝ) < (t : ℝ) * (t : ℝ) := by exact_mod_cast hb.2
      nlinarith
    · intro hr
      refine ⟨h, ?_⟩
      have : (s : ℝ) < (t : ℝ) * (t : ℝ) := by nlinarith
      exact_mod_cast this

/-- The merge test of `groupWordsIntoRegions` (source lines 486-499):
Euclidean distance between the two words' box centers strictly below
`2 ·` the mean of the two box heights. -/
def wordCloseB (w1 w2 : Word) : Bool :=
  let dist2 := (w2.bbox.centerX - w1.bbox.centerX) ^ 2
    + (w2.bbox.centerY - w1.bbox.centerY) ^ 2
  let avgHeight := (w1.bbox.height + w2.bbox.height) / 2
  sqrtLtB dist2 (avgHeight * 2)

/-- Loop body of `groupWordsIntoRegions`'s merge (source lines 500-512):
append the word, append its text, expand the box, replace the confidence
with the pairwise average. -/
def regionStep (r : TextRegion) (w2 : Word) : TextRegion :=
  { text := r.text ++ " " ++ w2.text
    confidence := (r.confidence + w2.confidence) / 2
    bbox := { x0 := min r.bbox.x0 w2.bbox.x0, y0 := min r.bbox.y0 w2.bbox.y0
              x1 := max r.bbox.x1 w2.bbox.x1, y1 := max r.bbox.y1 w2.bbox.y1 }
    orient := r.orient
    words := r.words ++ [w2] }

/-- Build the region seeded at `seed` after merging `merged` (in scan
order), then recompute the orientation from the full word list. -/
def buildRegion (seed : Word) (merged : List Word) : TextRegion :=
  let r := merged.foldl regionStep
    { text := seed.text, confidence := seed.confidence, bbox := seed.bbox
      orient := determineOrient [seed], words := [seed] }
  { r with orient := determineOrient r.words }

/-- `groupWordsIntoRegions` (source lines 460-522) as a recursion over the
word list; see the header comment for why `List.filter` against the seed
is a faithful rendering of the `used`-set loop. -/
def groupWordsIntoRegions : List Word → List TextRegion
  | [] => []
  | w :: rest =>
    buildRegion w (rest.filter (fun w2 => wordCloseB w w2)) ::
      groupWordsIntoRegions (rest.filter (fun w2 => !wordCloseB w w2))
termination_by l => l.length
decreasing_by
  simp only [List.length_cons]
  exact Nat.lt_succ_of_le (List.length_filter_le _ _)

/-- The merge test of `detectBookSpines` (source lines 552-568):
`isVerticallyAligned` (x-centers within 50 px) and vertical center
distance below `3 ·` the mean height.  `isHorizontallyAligned` is
computed by the source but not used in the condition; it is kept here as
an unused binding to mirror the source. -/
def regionCloseB (r1 r2 : TextRegion) : Bool :=
  let isVerticallyAligned := decide (abs (r1.bbox.centerX - r2.bbox.centerX) < 50)
  let _isHorizontallyAligned := decide (abs (r1.bbox.centerY - r2.bbox.centerY) < 30)
  let verticalDistance := abs (r2.bbox.centerY - r1.bbox.centerY)
  let avgHeight := (r1.bbox.height + r2.bbox.height) / 2
  isVerticallyAligned && decide (verticalDistance < avgHeight * 3)

/-- Loop body of `detectBookSpines`'s merge (source lines 569-587):
append the region, prepend its text to the title when its `y0` precedes
the seed's `y0` and append it otherwise, expand the box, replace the
confidence with the pairwise average. -/
def spineStep (seed : TextRegion) (s : BookSpine) (r2 : TextRegion) : BookSpine :=
  { title := if r2.bbox.y0 < seed.bbox.y0
      then r2.text ++ " " ++ s.title else s.title ++ " " ++ r2.text
    confidence := (s.confidence + r2.confidence) / 2
    bbox := { x0 := min s.bbox.x0 r2.bbox.x0, y0 := min s.bbox.y0 r2.bbox.y0
              x1 := max s.bbox.x1 r2.bbox.x1, y1 := max s.bbox.y1 r2.bbox.y1 }
    orient := s.orient
    textRegions := s.textRegions ++ [r2] }

/-- Build the spine candidate seeded at `seed` after merging `merged` (in
scan order); its `title` is still the raw (pre-cleanup) title. -/
def buildSpine (seed : TextRegion) (merged : List TextRegion) : BookSpine :=
  merged.foldl (spineStep seed)
    { title := seed.text, confidence := seed.confidence, bbox := seed.bbox
      orient := seed.orient, textRegions := [seed] }

/-- The seed/merged pairs produced by the `used`-set scan of
`detectBookSpines`, one pair per spine candidate, in seed scan order. -/
def spineSeedMerged : List TextRegion → List (TextRegion × List TextRegion)
  | [] => []
  | r :: rest =>
    (r, rest.filter (fun r2 => regionCloseB r r2)) ::
      spineSeedMerged (rest.filter (fun r2 => !regionCloseB r r2))
termination_by l => l.length
decreasing_by
  simp only [List.length_cons]
  exact Nat.lt_succ_of_le (List.length_filter_le _ _)

/-- All spine candidates (before title cleanup, acceptance filtering and
sorting), in seed scan order. -/
def spineCandidates (rs : List TextRegion) : List BookSpine :=
  (spineSeedMerged rs).map (fun p => buildSpine p.1 p.2)

/-- Specification-side companion of `buildSpine`'s title construction:
the constituent regions in the order in which their texts occur in the
raw title (a prepend puts the region first, an append puts it last). -/
def partsStep (seed : TextRegion) (parts : List TextRegion) (r2 : TextRegion) :
    List TextRegion :=
  if r2.bbox.y0 < seed.bbox.y0 then r2 :: parts else parts ++ [r2]

/-- The constituent regions of the candidate seeded at `seed`, in raw
title order. -/
def spineTitleParts (seed : TextRegion) (merged : List TextRegion) :
    List TextRegion :=
  merged.foldl (partsStep seed) [seed]

/-- Space-joined concatenation of a list of texts, mirroring the `' '`
separators inserted by the title construction. -/
def joinTexts : List String → String
  | [] => ""
  | [t] => t
  | t :: ts => t ++ " " ++ joinTexts ts

/- ### Title cleanup (`cleanBookTitle`, source lines 609-618) -/

/-- The JavaScript regex class `\s` (also the character set removed by
`String.prototype.trim`). -/
def isJsWs (c : Char) : Bool :=
  c = ' ' || c = '\t' || c = '\n' || c = '\x0b' || c = '\x0c' || c = '\r' ||
  c = '\u00a0' || c = '\u1680' || ('\u2000' ≤ c && c ≤ '\u200a') ||
  c = '\u2028' || c = '\u2029' || c = '\u202f' || c = '\u205f' ||
  c = '\u3000' || c = '\ufeff'

/-- The JavaScript regex class `\w`: ASCII letters, digits and underscore. -/
def isWordChar (c : Char) : Bool :=
  c.isAlpha || c.isDigit || c = '_'

/-- A character kept by the strip `replace(/[^\w\s\-:&'.,]/g, '')`. -/
def keptChar (c : Char) : Bool :=
  isWordChar c || isJsWs c ||
    (c = '-' || c = ':' || c = '&' || c = '\'' || c = '.' || c = ',')

/-- `replace(/\s+/g, ' ')`: each maximal run of whitespace becomes one
space.  The boolean argument records whether the previous character was
part of a whitespace run. -/
def collapseAux : Bool → List Char → List Char
  | _, [] => []
  | prevWs, c :: rest =>
    if isJsWs c then
      if prevWs then collapseAux true rest else ' ' :: collapseAux true rest
    else c :: collapseAux false rest

/-- `replace(/\s+/g, ' ')` on a character list. -/
def collapseWs (l : List Char) : List Char := collapseAux false l

/-- `replace(/^\d+\s*/, '')`: when the string starts with a digit, drop
the leading digit run and any whitespace run following it. -/
def stripLeadingNumber (l : List Char) : List Char :=
  match l with
  | [] => []
  | c :: _ => if c.isDigit then (l.dropWhile Char.isDigit).dropWhile isJsWs else l

/-- `String.prototype.trim`: drop whitespace from both ends. -/
def trimWs (l : List Char) : List Char :=
  ((l.dropWhile isJsWs).reverse.dropWhile isJsWs).reverse

/-- Prepend a character to the first token of a token list. -/
def consHead (c : Char) : List (List Char) → List (List Char)
  | [] => [[c]]
  | w :: ws => (c :: w) :: ws

/-- `String.prototype.split(' ')`: split at every single space character;
the empty string yields one empty token. -/
def splitSp : List Char → List (List Char)
  | [] => [[]]
  | c :: rest => if c = ' ' then [] :: splitSp rest else consHead c (splitSp rest)

/-- `Array.prototype.join(' ')`: concatenate tokens with single space
separators. -/
def joinSp : List (List Char) → List Char
  | [] => []
  | [w] => w
  | w :: ws => w ++ ' ' :: joinSp ws

/-- `cleanBookTitle` (source lines 609-618) on a character list: collapse
whitespace, strip the disallowed characters, strip a leading number,
trim, then drop the tokens of length `≤ 1` and rejoin with single
spaces. -/
def cleanChars (l : List Char) : List Char :=
  joinSp ((splitSp (trimWs (stripLeadingNumber
    ((collapseWs l).filter keptChar)))).filter (fun w => decide (1 < w.length)))

/-- `cleanBookTitle` on strings. -/
def cleanBookTitle (s : String) : String :=
  ⟨cleanChars s.data⟩

/- ### `detectBookSpines` assembly (source lines 525-606) -/

/-- Title cleanup applied to a spine candidate (`spine.title =
this.cleanBookTitle(spine.title)`). -/
def cleanSpine (s : BookSpine) : BookSpine :=
  { s with title := cleanBookTitle s.title }

/-- The acceptance filter (source line 595): cleaned title length at
least 3 and confidence strictly above 30. -/
def acceptSpineB (s : BookSpine) : Bool :=
  decide (3 ≤ s.title.length) && decide ((30 : ℚ) < s.confidence)

/-- `detectBookSpines`: build the candidates, clean each title, keep
the accepted candidates and sort them by vertical box center (the
JavaScript comparator `centerYA - centerYB`; `Array.prototype.sort` is
stable, as is insertion sort). -/
def detectBookSpines (rs : List TextRegion) : List BookSpine :=
  List.insertionSort (fun a b => a.bbox.centerY ≤ b.bbox.centerY)
    (((spineCandidates rs).map cleanSpine).filter acceptSpineB)

/- ### Specification-side definitions -/

/-- Modelled from the spec: the reference definition of the orientation
classifier in claim C8 — each word with `width > 1.5·height` adds its
confidence to a horizontal score, each word with `height > 1.5·width`
adds its confidence to a vertical score (two independent clauses),
near-square words add to neither, empty input gives `horizontal`, and
the result is `horizontal` exactly when the horizontal score is strictly
greater. -/
def determineOrientSpec (words : List Word) : Orient :=
  if words.isEmpty then .horizontal
  else
    let hs : ℚ := (words.map (fun w =>
      if w.bbox.x1 - w.bbox.x0 > (w.bbox.y1 - w.bbox.y0) * 1.5
      then w.confidence else 0)).sum
    let vs : ℚ := (words.map (fun w =>
      if w.bbox.y1 - w.bbox.y0 > (w.bbox.x1 - w.bbox.x0) * 1.5
      then w.confidence else 0)).sum
    if hs > vs then .horizontal else .vertical

/-- The character set named by the spec for cleaned titles: ASCII
letters, digits, space, hyphen, colon, ampersand, apostrophe, period and
comma. -/
def claimedTitleChar (c : Char) : Bool :=
  c.isAlpha || c.isDigit ||
    (c = ' ' || c = '-' || c = ':' || c = '&' || c = '\'' || c = '.' || c = ',')

/-- Whether a character list starts with a decimal digit. -/
def firstIsDigitL (l : List Char) : Bool :=
  match l with
  | [] => false
  | c :: _ => c.isDigit

/-- Whether a string starts with a decimal digit. -/
def firstIsDigit (s : String) : Bool :=
  firstIsDigitL s.data

/-- First-merge-wins pairwise running average: the confidence of a
region/spine after folding the merges `(current + new) / 2`. -/
def confFold (c : ℚ) (l : List ℚ) : ℚ :=
  l.foldl (fun acc a => (acc + a) / 2) c

/-- Minimum of a list of rationals, `0` for the empty list. -/
def listMin : List ℚ → ℚ
  | [] => 0
  | c :: l => l.foldl min c

/-- Maximum of a list of rationals, `0` for the empty list. -/
def listMax : List ℚ → ℚ
  | [] => 0
  | c :: l => l.foldl max c


/- ### Characterization of the merge folds -/

/-- The region fold appends each merged word to the word list. -/
theorem foldl_regionStep_words (m : List Word) (r : TextRegion) :
    (m.foldl regionStep r).words = r.words ++ m := by
  induction m generalizing r with
  | nil => simp
  | cons w m ih => simp [ih, regionStep]

/-- The region fold averages the confidence pairwise, in merge order. -/
theorem foldl_regionStep_conf (m : List Word) (r : TextRegion) :
    (m.foldl regionStep r).confidence = confFold r.confidence (m.map Word.confidence) := by
  induction m generalizing r with
  | nil => rfl
  | cons w m ih => simp [ih, regionStep, confFold]

/-- A built region's word list is its seed followed by the merged words
in scan order. -/
theorem buildRegion_words (seed : Word) (merged : List Word) :
    (buildRegion seed merged).words = seed :: merged := by
  simp [buildRegion, foldl_regionStep_words]

/-- A built region's confidence is the running pairwise average of its
seed's and merged words' confidences. -/
theorem buildRegion_conf (seed : Word) (merged : List Word) :
    (buildRegion seed merged).confidence
      = confFold seed.confidence (merged.map Word.confidence) := by
  simp [buildRegion, foldl_regionStep_conf]

/-- The spine fold appends each merged region to the region list. -/
theorem foldl_spineStep_textRegions (seed : TextRegion) (m : List TextRegion)
    (s : BookSpine) :
    (m.foldl (spineStep seed) s).textRegions = s.textRegions ++ m := by
  induction m generalizing s with
  | nil => simp
  | cons r m ih => simp [ih, spineStep]

/-- The spine fold averages the confidence pairwise, in merge order. -/
theorem foldl_spineStep_conf (seed : TextRegion) (m : List TextRegion)
    (s : BookSpine) :
    (m.foldl (spineStep seed) s).confidence
      = confFold s.confidence (m.map TextRegion.confidence) := by
  induction m generalizing s with
  | nil => rfl
  | cons r m ih => simp [ih, spineStep, confFold]

/-- A built spine's region list is its seed followed by the merged
regions in scan order. -/
theorem buildSpine_textRegions (seed : TextRegion) (merged : List TextRegion) :
    (buildSpine seed merged).textRegions = seed :: merged := by
  simp [buildSpine, foldl_spineStep_textRegions]

/-- A built spine's confidence is the running pairwise average of its
seed's and merged regions' confidences. -/
theorem buildSpine_conf (seed : TextRegion) (merged : List TextRegion) :
    (buildSpine seed merged).confidence
      = confFold seed.confidence (merged.map TextRegion.confidence) := by
  simp [buildSpine, foldl_spineStep_conf]

/- ### Sample inputs used by witnesses and counterexamples -/

/-- The word `{"Harry", box(0,0,50,20), conf=90}` of the spec's scenario. -/
def harryWord : Word := { text := "Harry", confidence := 90, bbox := ⟨0, 0, 50, 20⟩ }

/-- The word `{"Potter", box(55,0,110,20), conf=90}` of the spec's scenario. -/
def potterWord : Word := { text := "Potter", confidence := 90, bbox := ⟨55, 0, 110, 20⟩ }

/-- A word whose box is a single point (zero width and zero height). -/
def pointWord : Word := { text := "dot", confidence := 90, bbox := ⟨0, 5, 0, 5⟩ }

/-- A word with a zero-height box of positive width. -/
def flatWord : Word := { text := "flat", confidence := 90, bbox := ⟨0, 5, 50, 5⟩ }

/-- Two words at center distance exactly `2 · avgHeight` (distance 40,
threshold 40). -/
def exactWordA : Word := { text := "aa", confidence := 90, bbox := ⟨0, 0, 10, 20⟩ }

/-- Companion of `exactWordA`. -/
def exactWordB : Word := { text := "bb", confidence := 90, bbox := ⟨40, 0, 50, 20⟩ }

/-- Claim C4 and C1 sample: a seed region with top `y0 = 10`. -/
def regA : TextRegion :=
  { text := "AA", confidence := 90, bbox := ⟨0, 10, 10, 20⟩
    orient := .vertical, words := [] }

/-- A region above `regA` (top `y0 = 5`), x-aligned with it. -/
def regB : TextRegion :=
  { text := "BB", confidence := 90, bbox := ⟨0, 5, 10, 15⟩
    orient := .vertical, words := [] }

/-- A region between `regB` and `regA` (top `y0 = 7`), x-aligned. -/
def regC : TextRegion :=
  { text := "CC", confidence := 90, bbox := ⟨0, 7, 10, 17⟩
    orient := .vertical, words := [] }

/-- A region whose cleaned text has length 2. -/
def regAB : TextRegion :=
  { text := "ab", confidence := 90, bbox := ⟨0, 0, 10, 100⟩
    orient := .vertical, words := [] }

/- ### Claim C4 -/

/-- Claim C4: a candidate region `j` merges into the spine seeded at `i`
iff the two regions' x-centers differ by less than 50 and their
y-centers differ by less than `3 ·` the mean of the two heights; the
`isHorizontallyAligned` test (y-difference < 30) does not occur in this
characterization, so it has no effect on the merge decision. -/
theorem spine_merge_condition (r1 r2 : TextRegion) :
    regionCloseB r1 r2 = true ↔
      (abs (r1.bbox.centerX - r2.bbox.centerX) < 50 ∧
       abs (r1.bbox.centerY - r2.bbox.centerY)
         < 3 * ((r1.bbox.height + r2.bbox.height) / 2)) := by
  unfold regionCloseB
  simp only [Bool.and_eq_true, decide_eq_true_eq]
  rw [abs_sub_comm r2.bbox.centerY r1.bbox.centerY]
  constructor
  · rintro ⟨h1, h2⟩
    exact ⟨h1, by linarith⟩
  · rintro ⟨h1, h2⟩
    exact ⟨h1, by linarith⟩

/- ### Claim C5 -/

/-- Claim C5: `detectBookSpines` keeps a (cleaned) spine candidate iff
its cleaned title has length at least 3 and its confidence is strictly
greater than 30; in particular a candidate with a length-2 cleaned title
is never in the output, whatever its confidence, and neither is one with
confidence exactly 30. -/
theorem acceptance_filter :
    (∀ (rs : List TextRegion) (s : BookSpine),
        s ∈ detectBookSpines rs ↔
          (s ∈ (spineCandidates rs).map cleanSpine ∧
            3 ≤ s.title.length ∧ (30 : ℚ) < s.confidence)) ∧
    (∀ (rs : List TextRegion) (s : BookSpine),
        s.title.length = 2 → s ∉ detectBookSpines rs) ∧
    (∀ (rs : List TextRegion) (s : BookSpine),
        s.confidence = 30 → s ∉ detectBookSpines rs) := by
  have key : ∀ (rs : List TextRegion) (s : BookSpine),
      s ∈ detectBookSpines rs ↔
        (s ∈ (spineCandidates rs).map cleanSpine ∧
          3 ≤ s.title.length ∧ (30 : ℚ) < s.confidence) := by
    intro rs s
    unfold detectBookSpines
    rw [(List.perm_insertionSort _ _).mem_iff, List.mem_filter]
    unfold acceptSpineB
    simp [and_assoc]
  refine ⟨key, ?_, ?_⟩
  · intro rs s hlen hmem
    have h := ((key rs s).mp hmem).2.1
    omega
  · intro rs s hconf hmem
    have h := ((key rs s).mp hmem).2.2
    rw [hconf] at h
    exact lt_irrefl _ h

/-- Witness for claim C5: the candidate built from `regAB` has cleaned
title `"ab"` of length 2, and is not among the detected spines. -/
theorem acceptance_filter_witness :
    cleanSpine (buildSpine regAB []) ∉ detectBookSpines [regAB] :=
  acceptance_filter.2.1 [regAB] (cleanSpine (buildSpine regAB [])) (by decide)

/- ### Claim C8 -/

/-- Under the data-model invariant `x0 ≤ x1 ∧ y0 ≤ y1`, the orientation
fold accumulates exactly the two independent per-word sums of the
reference definition. -/
theorem foldl_orientStep (ws : List Word)
    (hws : ∀ w ∈ ws, w.bbox.x0 ≤ w.bbox.x1 ∧ w.bbox.y0 ≤ w.bbox.y1)
    (p : ℚ × ℚ) :
    ws.foldl orientStep p =
      (p.1 + ((ws.map fun w =>
          if w.bbox.x1 - w.bbox.x0 > (w.bbox.y1 - w.bbox.y0) * 1.5
          then w.confidence else 0).sum),
       p.2 + ((ws.map fun w =>
          if w.bbox.y1 - w.bbox.y0 > (w.bbox.x1 - w.bbox.x0) * 1.5
          then w.confidence else 0).sum)) := by
  induction ws generalizing p with
  | nil => simp
  | cons w ws ih =>
    have hw := hws w (List.mem_cons_self _ _)
    have hrest : ∀ x ∈ ws, x.bbox.x0 ≤ x.bbox.x1 ∧ x.bbox.y0 ≤ x.bbox.y1 :=
      fun x hx => hws x (List.mem_cons_of_mem _ hx)
    simp only [List.foldl_cons, List.map_cons, List.sum_cons]
    rw [ih hrest]
    unfold orientStep
    by_cases h1 : w.bbox.x1 - w.bbox.x0 > (w.bbox.y1 - w.bbox.y0) * 1.5
    · have h2 : ¬ w.bbox.y1 - w.bbox.y0 > (w.bbox.x1 - w.bbox.x0) * 1.5 := by
        have hx : (0 : ℚ) ≤ w.bbox.x1 - w.bbox.x0 := by linarith [hw.1]
        have hy : (0 : ℚ) ≤ w.bbox.y1 - w.bbox.y0 := by linarith [hw.2]
        intro h2
        nlinarith
      simp only [if_pos h1, if_neg h2]
      exact Prod.ext (by ring) (by ring)
    · by_cases h2 : w.bbox.y1 - w.bbox.y0 > (w.bbox.x1 - w.bbox.x0) * 1.5
      · simp only [if_neg h1, if_pos h2]
        exact Prod.ext (by ring) (by ring)
      · simp only [if_neg h1, if_neg h2]
        exact Prod.ext (by ring) (by ring)

/-- Claim C8: on word lists satisfying the data-model box invariant
`x0 ≤ x1 ∧ y0 ≤ y1`, `determineOrientation` equals the reference
definition of the spec (independent horizontal/vertical sums, strict
comparison favouring vertical on ties, `horizontal` on empty input). -/
theorem determineOrient_matches_spec (ws : List Word)
    (hws : ∀ w ∈ ws, w.bbox.x0 ≤ w.bbox.x1 ∧ w.bbox.y0 ≤ w.bbox.y1) :
    determineOrient ws = determineOrientSpec ws := by
  unfold determineOrient determineOrientSpec
  rcases ws with _ | ⟨w, ws'⟩
  · rfl
  · rw [foldl_orientStep _ hws]
    simp

/-- Witness for claim C8 on a concrete wide word. -/
theorem determineOrient_matches_spec_witness :
    determineOrient [harryWord] = determineOrientSpec [harryWord] :=
  determineOrient_matches_spec [harryWord] (by decide)

/- ### Claim C9 -/

/-- Claim C9 is false as stated: `pointWord` has a zero-height box, but
contributes to neither score (its width is also zero), and a single such
word yields `vertical`, not `horizontal`. -/
theorem zero_height_counterexample :
    pointWord.bbox.y1 = pointWord.bbox.y0 ∧
    wordScore pointWord = (0, 0) ∧
    determineOrient [pointWord] ≠ Orient.horizontal := by decide

/-- Claim C9 (amended): a word whose box has zero height and *positive
width* always adds its confidence to the horizontal score (and nothing
to the vertical one), and a single such word of positive confidence
yields `horizontal`; a zero-width zero-height box contributes to
neither score, so a single such word yields `vertical`. -/
theorem zero_height_scores (w : Word)
    (h0 : w.bbox.y1 = w.bbox.y0) (hw : w.bbox.x0 < w.bbox.x1) :
    wordScore w = (w.confidence, 0) ∧
    (0 < w.confidence → determineOrient [w] = Orient.horizontal) := by
  have hcond : w.bbox.x1 - w.bbox.x0 > (w.bbox.y1 - w.bbox.y0) * 1.5 := by
    rw [h0]
    have : (w.bbox.y0 - w.bbox.y0) * 1.5 = 0 := by ring
    rw [this]
    linarith
  constructor
  · simp only [wordScore]
    rw [if_pos hcond]
  · intro hc
    simp only [determineOrient, List.isEmpty_cons, Bool.false_eq_true, if_false,
      List.foldl_cons, List.foldl_nil, orientStep]
    rw [if_pos hcond]
    simpa using hc

/-- Witness for the amended claim C9: `flatWord` (zero height, width 50,
confidence 90) scores `(90, 0)` and alone classifies as `horizontal`. -/
theorem zero_height_scores_witness :
    wordScore flatWord = (flatWord.confidence, 0) ∧
    determineOrient [flatWord] = Orient.horizontal := by
  have h := zero_height_scores flatWord (by decide) (by decide)
  exact ⟨h.1, h.2 (by decide)⟩

/- ### Claim C6 -/

/-- Claim C6: a later word merges into the region seeded at an earlier
word exactly when the Euclidean distance between the two box centers is
strictly below `2 ·` the mean of the two box heights; at exactly the
threshold the words are not merged; and the spec's Harry/Potter scenario
produces two separate regions. -/
theorem word_merge_threshold :
    (∀ w1 w2 : Word,
        wordCloseB w1 w2 = true ↔
          Real.sqrt (((w2.bbox.centerX : ℝ) - (w1.bbox.centerX : ℝ)) ^ 2 +
              ((w2.bbox.centerY : ℝ) - (w1.bbox.centerY : ℝ)) ^ 2) <
            2 * (((w1.bbox.height : ℝ) + (w2.bbox.height : ℝ)) / 2)) ∧
    (∀ w1 w2 : Word,
        Real.sqrt (((w2.bbox.centerX : ℝ) - (w1.bbox.centerX : ℝ)) ^ 2 +
            ((w2.bbox.centerY : ℝ) - (w1.bbox.centerY : ℝ)) ^ 2) =
          2 * (((w1.bbox.height : ℝ) + (w2.bbox.height : ℝ)) / 2) →
        wordCloseB w1 w2 = false) ∧
    (groupWordsIntoRegions [harryWord, potterWord]).map TextRegion.text
      = ["Harry", "Potter"] := by
  have key : ∀ w1 w2 : Word,
      wordCloseB w1 w2 = true ↔
        Real.sqrt (((w2.bbox.centerX : ℝ) - (w1.bbox.centerX : ℝ)) ^ 2 +
            ((w2.bbox.centerY : ℝ) - (w1.bbox.centerY : ℝ)) ^ 2) <
          2 * (((w1.bbox.height : ℝ) + (w2.bbox.height : ℝ)) / 2) := by
    intro w1 w2
    unfold wordCloseB
    rw [sqrtLtB_iff]
    have e1 : (((w2.bbox.centerX - w1.bbox.centerX) ^ 2
          + (w2.bbox.centerY - w1.bbox.centerY) ^ 2 : ℚ) : ℝ)
        = ((w2.bbox.centerX : ℝ) - (w1.bbox.centerX : ℝ)) ^ 2 +
            ((w2.bbox.centerY : ℝ) - (w1.bbox.centerY : ℝ)) ^ 2 := by
      push_cast
      ring
    have e2 : (((w1.bbox.height + w2.bbox.height) / 2 * 2 : ℚ) : ℝ)
        = 2 * (((w1.bbox.height : ℝ) + (w2.bbox.height : ℝ)) / 2) := by
      push_cast
      ring
    rw [e1, e2]
  refine ⟨key, ?_, ?_⟩
  · intro w1 w2 heq
    rcases hb : wordCloseB w1 w2 with _ | _
    · rfl
    · exfalso
      have := (key w1 w2).mp hb
      rw [heq] at this
      exact lt_irrefl _ this
  · have h : wordCloseB harryWord potterWord = false := by decide
    have hg : groupWordsIntoRegions [harryWord, potterWord]
        = [buildRegion harryWord [], buildRegion potterWord []] := by
      simp [groupWordsIntoRegions, h, List.filter]
    rw [hg]
    decide

/-- Witness for claim C6: `exactWordA`/`exactWordB` sit at center
distance exactly 40 with threshold exactly 40, and are not merged. -/
theorem word_merge_threshold_witness :
    wordCloseB exactWordA exactWordB = false := by
  apply word_merge_threshold.2.1 exactWordA exactWordB
  have e1 : ((exactWordB.bbox.centerX : ℝ) - (exactWordA.bbox.centerX : ℝ)) ^ 2 +
      ((exactWordB.bbox.centerY : ℝ) - (exactWordA.bbox.centerY : ℝ)) ^ 2 = 1600 := by
    norm_num [exactWordA, exactWordB, BBox.centerX, BBox.centerY]
  have e2 : 2 * (((exactWordA.bbox.height : ℝ) + (exactWordB.bbox.height : ℝ)) / 2)
      = 40 := by
    norm_num [exactWordA, exactWordB, BBox.height]
  rw [e1, e2, show (1600 : ℝ) = 40 ^ 2 by norm_num,
    Real.sqrt_sq (by norm_num : (0 : ℝ) ≤ 40)]

/- ### Claim C10 -/

/-- `List.foldl min` is a lower bound of its seed and all elements. -/
theorem foldl_min_le (l : List ℚ) : ∀ c : ℚ,
    l.foldl min c ≤ c ∧ ∀ a ∈ l, l.foldl min c ≤ a := by
  induction l with
  | nil => exact fun c => ⟨le_refl c, by simp⟩
  | cons a l ih =>
    intro c
    have h := ih (min c a)
    refine ⟨le_trans h.1 (min_le_left _ _), ?_⟩
    intro x hx
    rcases List.mem_cons.mp hx with rfl | hx
    · exact le_trans h.1 (min_le_right _ _)
    · exact h.2 x hx

/-- `List.foldl max` is an upper bound of its seed and all elements. -/
theorem le_foldl_max (l : List ℚ) : ∀ c : ℚ,
    c ≤ l.foldl max c ∧ ∀ a ∈ l, a ≤ l.foldl max c := by
  induction l with
  | nil => exact fun c => ⟨le_refl c, by simp⟩
  | cons a l ih =>
    intro c
    have h := ih (max c a)
    refine ⟨le_trans (le_max_left _ _) h.1, ?_⟩
    intro x hx
    rcases List.mem_cons.mp hx with rfl | hx
    · exact le_trans (le_max_right _ _) h.1
    · exact h.2 x hx

/-- The running pairwise average stays inside any interval containing
the seed and every merged value. -/
theorem confFold_bounds (l : List ℚ) : ∀ (c lo hi : ℚ),
    lo ≤ c → c ≤ hi → (∀ a ∈ l, lo ≤ a ∧ a ≤ hi) →
    lo ≤ confFold c l ∧ confFold c l ≤ hi := by
  induction l with
  | nil => exact fun c lo hi h1 h2 _ => ⟨h1, h2⟩
  | cons a l ih =>
    intro c lo hi h1 h2 hl
    have ha := hl a (List.mem_cons_self _ _)
    have step : confFold c (a :: l) = confFold ((c + a) / 2) l := rfl
    rw [step]
    exact ih ((c + a) / 2) lo hi (by linarith [ha.1]) (by linarith [ha.2])
      (fun x hx => hl x (List.mem_cons_of_mem _ hx))

/-- The running pairwise average lies between the minimum and the maximum
of the seed and the merged values. -/
theorem confFold_between (c : ℚ) (l : List ℚ) :
    listMin (c :: l) ≤ confFold c l ∧ confFold c l ≤ listMax (c :: l) := by
  have hmin := foldl_min_le l c
  have hmax := le_foldl_max l c
  exact confFold_bounds l c (listMin (c :: l)) (listMax (c :: l))
    hmin.1 hmax.1 (fun a ha => ⟨hmin.2 a ha, hmax.2 a ha⟩)

/-- Every region produced by `groupWordsIntoRegions` is `buildRegion`
of a seed from the input and merged words from the input. -/
theorem group_mem_shape (ws : List Word) :
    ∀ r ∈ groupWordsIntoRegions ws, ∃ seed merged,
      r = buildRegion seed merged ∧ seed ∈ ws ∧ ∀ w ∈ merged, w ∈ ws := by
  induction ws using groupWordsIntoRegions.induct with
  | case1 => simp [groupWordsIntoRegions]
  | case2 w rest ih =>
    intro r hr
    rw [groupWordsIntoRegions] at hr
    rcases List.mem_cons.mp hr with rfl | hr
    · exact ⟨w, rest.filter (fun w2 => wordCloseB w w2), rfl,
        List.mem_cons_self _ _,
        fun x hx => List.mem_cons_of_mem _ (List.mem_of_mem_filter hx)⟩
    · obtain ⟨seed, merged, heq, hseed, hmerged⟩ := ih r hr
      exact ⟨seed, merged, heq,
        List.mem_cons_of_mem _ (List.mem_of_mem_filter hseed),
        fun x hx => List.mem_cons_of_mem _ (List.mem_of_mem_filter (hmerged x hx))⟩

/-- Every spine candidate is `buildSpine` of a seed from the input and
merged regions from the input. -/
theorem spine_mem_shape (rs : List TextRegion) :
    ∀ s ∈ spineCandidates rs, ∃ seed merged,
      s = buildSpine seed merged ∧ seed ∈ rs ∧ ∀ r ∈ merged, r ∈ rs := by
  induction rs using spineSeedMerged.induct with
  | case1 => simp [spineCandidates, spineSeedMerged]
  | case2 r0 rest ih =>
    intro s hs
    rw [spineCandidates, spineSeedMerged] at hs
    rcases List.mem_cons.mp hs with rfl | hs
    · exact ⟨r0, rest.filter (fun r2 => regionCloseB r0 r2), rfl,
        List.mem_cons_self _ _,
        fun x hx => List.mem_cons_of_mem _ (List.mem_of_mem_filter hx)⟩
    · obtain ⟨seed, merged, heq, hseed, hmerged⟩ := ih s hs
      exact ⟨seed, merged, heq,
        List.mem_cons_of_mem _ (List.mem_of_mem_filter hseed),
        fun x hx => List.mem_cons_of_mem _ (List.mem_of_mem_filter (hmerged x hx))⟩

/-- Claim C10: when every input word confidence lies in `[0, 100]`,
every region of `groupWordsIntoRegions` and every spine candidate built
from those regions has a confidence between the minimum and the maximum
of its constituents' confidences, hence itself in `[0, 100]`. -/
theorem confidence_bounds :
    (∀ ws : List Word, (∀ w ∈ ws, 0 ≤ w.confidence ∧ w.confidence ≤ 100) →
      ∀ r ∈ groupWordsIntoRegions ws,
        (listMin (r.words.map Word.confidence) ≤ r.confidence ∧
          r.confidence ≤ listMax (r.words.map Word.confidence)) ∧
        (0 ≤ r.confidence ∧ r.confidence ≤ 100)) ∧
    (∀ ws : List Word, (∀ w ∈ ws, 0 ≤ w.confidence ∧ w.confidence ≤ 100) →
      ∀ s ∈ spineCandidates (groupWordsIntoRegions ws),
        (listMin (s.textRegions.map TextRegion.confidence) ≤ s.confidence ∧
          s.confidence ≤ listMax (s.textRegions.map TextRegion.confidence)) ∧
        (0 ≤ s.confidence ∧ s.confidence ≤ 100)) := by
  have part1 : ∀ ws : List Word,
      (∀ w ∈ ws, 0 ≤ w.confidence ∧ w.confidence ≤ 100) →
      ∀ r ∈ groupWordsIntoRegions ws,
        (listMin (r.words.map Word.confidence) ≤ r.confidence ∧
          r.confidence ≤ listMax (r.words.map Word.confidence)) ∧
        (0 ≤ r.confidence ∧ r.confidence ≤ 100) := by
    intro ws hws r hr
    obtain ⟨seed, merged, rfl, hseed, hmerged⟩ := group_mem_shape ws r hr
    rw [buildRegion_words, buildRegion_conf]
    constructor
    · simpa using confFold_between seed.confidence (merged.map Word.confidence)
    · refine confFold_bounds (merged.map Word.confidence) seed.confidence 0 100
        (hws seed hseed).1 (hws seed hseed).2 ?_
      intro a ha
      obtain ⟨x, hx, rfl⟩ := List.mem_map.mp ha
      exact hws x (hmerged x hx)
  refine ⟨part1, ?_⟩
  intro ws hws s hs
  have hreg : ∀ t ∈ groupWordsIntoRegions ws, 0 ≤ t.confidence ∧ t.confidence ≤ 100 :=
    fun t ht => (part1 ws hws t ht).2
  obtain ⟨seed, merged, rfl, hseed, hmerged⟩ :=
    spine_mem_shape (groupWordsIntoRegions ws) s hs
  rw [buildSpine_textRegions, buildSpine_conf]
  constructor
  · simpa using confFold_between seed.confidence (merged.map TextRegion.confidence)
  · refine confFold_bounds (merged.map TextRegion.confidence) seed.confidence 0 100
      (hreg seed hseed).1 (hreg seed hseed).2 ?_
    intro a ha
    obtain ⟨x, hx, rfl⟩ := List.mem_map.mp ha
    exact hreg x (hmerged x hx)

/-- Witness for claim C10 on the concrete one-word input `[harryWord]`. -/
theorem confidence_bounds_witness :
    (listMin ((buildRegion harryWord []).words.map Word.confidence)
        ≤ (buildRegion harryWord []).confidence ∧
      (buildRegion harryWord []).confidence
        ≤ listMax ((buildRegion harryWord []).words.map Word.confidence)) ∧
    (0 ≤ (buildRegion harryWord []).confidence ∧
      (buildRegion harryWord []).confidence ≤ 100) := by
  refine confidence_bounds.1 [harryWord] (by decide) (buildRegion harryWord []) ?_
  simp [groupWordsIntoRegions]

/- ### Claim C3 -/

/-- The word lists of the produced regions are a permutation of the
input word list. -/
theorem group_join_perm (ws : List Word) :
    (((groupWordsIntoRegions ws).map TextRegion.words).flatten).Perm ws := by
  induction ws using groupWordsIntoRegions.induct with
  | case1 => simp [groupWordsIntoRegions]
  | case2 w rest ih =>
    rw [groupWordsIntoRegions]
    simp only [List.map_cons, List.flatten_cons, buildRegion_words, List.cons_append]
    exact ((ih.append_left _).trans
      (List.filter_append_perm (fun w2 => wordCloseB w w2) rest)).cons w

/-- The region lists of the spine candidates are a permutation of the
input region list. -/
theorem spine_join_perm (rs : List TextRegion) :
    (((spineCandidates rs).map BookSpine.textRegions).flatten).Perm rs := by
  induction rs using spineSeedMerged.induct with
  | case1 => simp [spineCandidates, spineSeedMerged]
  | case2 r0 rest ih =>
    rw [spineCandidates, spineSeedMerged]
    simp only [List.map_cons, List.flatten_cons, buildSpine_textRegions,
      List.cons_append]
    have ih' : (((spineCandidates (rest.filter (fun r2 => !regionCloseB r0 r2))).map
        BookSpine.textRegions).flatten).Perm
        (rest.filter (fun r2 => !regionCloseB r0 r2)) := ih
    exact ((ih'.append_left _).trans
      (List.filter_append_perm (fun r2 => regionCloseB r0 r2) rest)).cons r0

/-- Claim C3: every input word occurrence ends up in exactly one region
(the regions' word lists are jointly a permutation of the input), and
every region ends up in exactly one spine candidate (the candidates'
region lists are jointly a permutation of the region list); an accepted
spine keeps its whole candidate, a rejected candidate is dropped whole. -/
theorem partition_invariant (ws : List Word) (rs : List TextRegion) :
    (((groupWordsIntoRegions ws).map TextRegion.words).flatten).Perm ws ∧
    (((spineCandidates rs).map BookSpine.textRegions).flatten).Perm rs :=
  ⟨group_join_perm ws, spine_join_perm rs⟩

/- ### Claim C1 -/

/-- Space-joining is compatible with prepending one text. -/
theorem joinTexts_cons (t : String) (ts : List String) (h : ts ≠ []) :
    joinTexts (t :: ts) = t ++ " " ++ joinTexts ts := by
  cases ts with
  | nil => exact absurd rfl h
  | cons t1 ts' => rfl

/-- Space-joining is compatible with appending one text. -/
theorem joinTexts_append_single (ts : List String) (t : String) (h : ts ≠ []) :
    joinTexts (ts ++ [t]) = joinTexts ts ++ " " ++ t := by
  induction ts with
  | nil => exact absurd rfl h
  | cons t0 ts ih =>
    cases ts with
    | nil => rfl
    | cons t1 ts' =>
      rw [List.cons_append, joinTexts_cons t0 _ (by simp),
        joinTexts_cons t0 (t1 :: ts') (by simp), ih (by simp)]
      simp [String.append_assoc]

/-- The title built by the spine fold is the space-joined text list of
the parts accumulated by `partsStep`, for any aligned starting state. -/
theorem foldl_spine_title (seed : TextRegion) (m : List TextRegion) :
    ∀ (s : BookSpine) (parts : List TextRegion), parts ≠ [] →
      s.title = joinTexts (parts.map TextRegion.text) →
      (m.foldl (spineStep seed) s).title
        = joinTexts ((m.foldl (partsStep seed) parts).map TextRegion.text) := by
  induction m with
  | nil => intro s parts _ h; exact h
  | cons r2 m ih =>
    intro s parts hne h
    simp only [List.foldl_cons]
    have hmapne : parts.map TextRegion.text ≠ [] := by
      simpa using hne
    by_cases hy : r2.bbox.y0 < seed.bbox.y0
    · have hparts : partsStep seed parts r2 = r2 :: parts := by
        simp [partsStep, if_pos hy]
      rw [hparts]
      refine ih (spineStep seed s r2) (r2 :: parts) (by simp) ?_
      simp only [spineStep, if_pos hy, List.map_cons]
      rw [joinTexts_cons _ _ hmapne, h]
    · have hparts : partsStep seed parts r2 = parts ++ [r2] := by
        simp [partsStep, if_neg hy]
      rw [hparts]
      refine ih (spineStep seed s r2) (parts ++ [r2]) (by simp) ?_
      simp only [spineStep, if_neg hy, List.map_append, List.map_cons, List.map_nil]
      rw [joinTexts_append_single _ _ hmapne, h]

/-- The parts fold puts the regions with `y0` before the seed's in front
(in reverse merge order) and the others behind (in merge order). -/
theorem foldl_partsStep (seed : TextRegion) (m : List TextRegion) :
    ∀ pre post : List TextRegion,
      m.foldl (partsStep seed) (pre.reverse ++ seed :: post)
        = (pre ++ m.filter (fun r => decide (r.bbox.y0 < seed.bbox.y0))).reverse ++
            seed :: (post ++ m.filter (fun r => !decide (r.bbox.y0 < seed.bbox.y0))) := by
  induction m with
  | nil => intro pre post; simp
  | cons r m ih =>
    intro pre post
    simp only [List.foldl_cons]
    by_cases hy : r.bbox.y0 < seed.bbox.y0
    · have hstep : partsStep seed (pre.reverse ++ seed :: post) r
          = (pre ++ [r]).reverse ++ seed :: post := by
        simp [partsStep, if_pos hy]
      rw [hstep, ih (pre ++ [r]) post]
      simp [List.filter_cons, hy]
    · have hstep : partsStep seed (pre.reverse ++ seed :: post) r
          = pre.reverse ++ seed :: (post ++ [r]) := by
        simp [partsStep, if_neg hy]
      rw [hstep, ih pre (post ++ [r])]
      simp [List.filter_cons, hy]

/-- Claim C1 is false as stated: with the x-aligned regions
`[regA, regB, regC]` (tops 10, 5, 7) both `regB` and `regC` merge into
the spine seeded at `regA` and are both *prepended* (each has `y0` below
the seed's), so the accepted spine's raw title reads `"CC BB AA"` even
though `regC`'s top (7) lies below `regB`'s top (5): the constituent
texts are not in top-to-bottom order of `y0`. -/
theorem spine_title_order_counterexample :
    (buildSpine regA [regB, regC]).title = "CC BB AA" ∧
    regB.bbox.y0 < regC.bbox.y0 ∧
    ¬ (∀ (rs : List TextRegion), ∀ p ∈ spineSeedMerged rs,
        acceptSpineB (cleanSpine (buildSpine p.1 p.2)) = true →
          List.Pairwise (fun a b : TextRegion => a.bbox.y0 ≤ b.bbox.y0)
            (spineTitleParts p.1 p.2)) := by
  refine ⟨by decide, by decide, ?_⟩
  intro h
  have h1 : regionCloseB regA regB = true := by decide
  have h2 : regionCloseB regA regC = true := by decide
  have hs : spineSeedMerged [regA, regB, regC] = [(regA, [regB, regC])] := by
    simp [spineSeedMerged, List.filter, h1, h2]
  have hp : (regA, [regB, regC]) ∈ spineSeedMerged [regA, regB, regC] := by
    rw [hs]
    exact List.mem_cons_self _ _
  have hpar := h [regA, regB, regC] (regA, [regB, regC]) hp (by decide)
  rw [show spineTitleParts regA [regB, regC] = [regC, regB, regA] from by decide]
    at hpar
  have hCB : regC.bbox.y0 ≤ regB.bbox.y0 :=
    (List.pairwise_cons.mp hpar).1 regB (by simp)
  revert hCB
  decide

/-- Claim C1 (amended): a merged region's text is prepended to the title
exactly when its `y0` precedes the *seed's* `y0` and appended otherwise;
hence the raw (pre-cleanup) title is the space-joined concatenation of:
the merged regions with `y0` before the seed's in *reverse* merge order,
then the seed, then the remaining merged regions in merge order.  The
texts of the regions prepended ahead of the seed are therefore not in
general in top-to-bottom order of `y0` (only the prepended/appended
split relative to the seed is guaranteed). -/
theorem spine_title_order (seed : TextRegion) (merged : List TextRegion) :
    (buildSpine seed merged).title
      = joinTexts ((spineTitleParts seed merged).map TextRegion.text) ∧
    spineTitleParts seed merged
      = (merged.filter (fun r => decide (r.bbox.y0 < seed.bbox.y0))).reverse ++
          seed :: merged.filter (fun r => !decide (r.bbox.y0 < seed.bbox.y0)) := by
  constructor
  · exact foldl_spine_title seed merged _ [seed] (by simp) rfl
  · have := foldl_partsStep seed merged [] []
    simpa [spineTitleParts] using this

/- ### Claims C2 and C7: structure of cleaned titles -/

/-- A token of a cleaned title: length at least 2, every character kept
by the strip and not whitespace. -/
def goodWord (w : List Char) : Prop :=
  1 < w.length ∧ ∀ c ∈ w, keptChar c = true ∧ isJsWs c = false

/-- Every character emitted by the whitespace collapse is either a space
or a non-whitespace character of the input. -/
theorem mem_collapseAux {l : List Char} : ∀ {b c}, c ∈ collapseAux b l →
    c = ' ' ∨ (c ∈ l ∧ isJsWs c = false) := by
  induction l with
  | nil => intro b c hc; simp [collapseAux] at hc
  | cons c0 rest ih =>
    intro b c hc
    by_cases h0 : isJsWs c0
    · rcases b with _ | _
      · simp only [collapseAux, h0, if_true, Bool.false_eq_true] at hc
        rcases List.mem_cons.mp hc with rfl | hc
        · exact Or.inl rfl
        · rcases ih hc with h | h
          · exact Or.inl h
          · exact Or.inr ⟨List.mem_cons_of_mem _ h.1, h.2⟩
      · simp only [collapseAux, h0, if_true] at hc
        rcases ih hc with h | h
        · exact Or.inl h
        · exact Or.inr ⟨List.mem_cons_of_mem _ h.1, h.2⟩
    · simp only [collapseAux, h0, if_false] at hc
      rcases List.mem_cons.mp hc with rfl | hc
      · exact Or.inr ⟨List.mem_cons_self _ _, by simpa using h0⟩
      · rcases ih hc with h | h
        · exact Or.inl h
        · exact Or.inr ⟨List.mem_cons_of_mem _ h.1, h.2⟩

/-- One collapse step over a non-whitespace character, in either state. -/
theorem collapseAux_cons_nonws (b : Bool) (c : Char) (l : List Char)
    (h : isJsWs c = false) :
    collapseAux b (c :: l) = c :: collapseAux false l := by
  cases b <;> simp [collapseAux, h]

/-- The collapse leaves a non-empty whitespace-free block unchanged and
continues after it in the non-whitespace state. -/
theorem collapseAux_append (w : List Char) : ∀ (l : List Char) (b : Bool),
    w ≠ [] → (∀ c ∈ w, isJsWs c = false) →
    collapseAux b (w ++ l) = w ++ collapseAux false l := by
  induction w with
  | nil => intro l b h _; exact absurd rfl h
  | cons c0 w ih =>
    intro l b _ hw
    have h0 : isJsWs c0 = false := hw c0 (List.mem_cons_self _ _)
    rcases w with _ | ⟨c1, w'⟩
    · rw [List.cons_append, List.nil_append,
        collapseAux_cons_nonws b c0 l h0]
      rfl
    · rw [List.cons_append, collapseAux_cons_nonws b c0 _ h0,
        ih l false (by simp) (fun c hc => hw c (List.mem_cons_of_mem _ hc))]
      rfl

/-- When the next character is not whitespace, the collapse state does
not matter. -/
theorem collapseAux_b_irrel (c : Char) (l : List Char) (h : isJsWs c = false) :
    collapseAux true (c :: l) = collapseAux false (c :: l) := by
  simp [collapseAux, h]

/-- `joinSp` on a list with at least two tokens. -/
theorem joinSp_cons (w : List Char) (ws : List (List Char)) (h : ws ≠ []) :
    joinSp (w :: ws) = w ++ ' ' :: joinSp ws := by
  cases ws with
  | nil => exact absurd rfl h
  | cons w1 ws' => rfl

/-- Every character of a space-join is a space or a character of one of
the tokens. -/
theorem mem_joinSp {ws : List (List Char)} {c : Char} (hc : c ∈ joinSp ws) :
    c = ' ' ∨ ∃ w ∈ ws, c ∈ w := by
  induction ws with
  | nil => simp [joinSp] at hc
  | cons w ws' ih =>
    cases ws' with
    | nil => exact Or.inr ⟨w, List.mem_cons_self _ _, hc⟩
    | cons w1 ws'' =>
      rw [joinSp_cons _ _ (by simp)] at hc
      rcases List.mem_append.mp hc with h | h
      · exact Or.inr ⟨w, List.mem_cons_self _ _, h⟩
      · rcases List.mem_cons.mp h with rfl | h
        · exact Or.inl rfl
        · rcases ih h with h | ⟨w2, hw2, hc2⟩
          · exact Or.inl h
          · exact Or.inr ⟨w2, List.mem_cons_of_mem _ hw2, hc2⟩

/-- A non-empty space-join of non-empty whitespace-free tokens starts
with a non-whitespace character. -/
theorem joinSp_head_nonws (ws : List (List Char))
    (h : ∀ w ∈ ws, w ≠ [] ∧ ∀ c ∈ w, isJsWs c = false) (hne : ws ≠ []) :
    ∃ c t, joinSp ws = c :: t ∧ isJsWs c = false := by
  obtain ⟨w, ws', rfl⟩ := List.exists_cons_of_ne_nil hne
  obtain ⟨hw, hwc⟩ := h w (List.mem_cons_self _ _)
  obtain ⟨c, w', rfl⟩ := List.exists_cons_of_ne_nil hw
  have hc : isJsWs c = false := hwc c (List.mem_cons_self _ _)
  cases ws' with
  | nil => exact ⟨c, w', rfl, hc⟩
  | cons w1 ws'' =>
    rw [joinSp_cons _ _ (by simp)]
    exact ⟨c, w' ++ ' ' :: joinSp (w1 :: ws''), rfl, hc⟩

/-- The reverse of such a space-join also starts with a non-whitespace
character (i.e. the join ends in one). -/
theorem joinSp_reverse_nonws (ws : List (List Char))
    (h : ∀ w ∈ ws, w ≠ [] ∧ ∀ c ∈ w, isJsWs c = false) (hne : ws ≠ []) :
    ∃ c t, (joinSp ws).reverse = c :: t ∧ isJsWs c = false := by
  induction ws with
  | nil => exact absurd rfl hne
  | cons w ws' ih =>
    obtain ⟨hw, hwc⟩ := h w (List.mem_cons_self _ _)
    cases ws' with
    | nil =>
      show ∃ c t, w.reverse = c :: t ∧ isJsWs c = false
      cases hrev : w.reverse with
      | nil => exact absurd (by simpa using hrev) hw
      | cons c t =>
        have hc : c ∈ w := by
          rw [← List.mem_reverse, hrev]
          exact List.mem_cons_self _ _
        exact ⟨c, t, rfl, hwc c hc⟩
    | cons w1 ws'' =>
      have hrest : ∀ x ∈ w1 :: ws'', x ≠ [] ∧ ∀ c ∈ x, isJsWs c = false :=
        fun x hx => h x (List.mem_cons_of_mem _ hx)
      obtain ⟨c, t, hct, hcns⟩ := ih hrest (by simp)
      rw [joinSp_cons _ _ (by simp), List.reverse_append, List.reverse_cons, hct]
      exact ⟨c, t ++ [' '] ++ w.reverse, by simp, hcns⟩

/-- The whitespace collapse is the identity on a space-join of good
tokens. -/
theorem collapseWs_joinSp (ws : List (List Char))
    (h : ∀ w ∈ ws, w ≠ [] ∧ ∀ c ∈ w, isJsWs c = false) :
    collapseAux false (joinSp ws) = joinSp ws := by
  induction ws with
  | nil => rfl
  | cons w ws' ih =>
    obtain ⟨hw, hwc⟩ := h w (List.mem_cons_self _ _)
    have hrest : ∀ x ∈ ws', x ≠ [] ∧ ∀ c ∈ x, isJsWs c = false :=
      fun x hx => h x (List.mem_cons_of_mem _ hx)
    cases ws' with
    | nil =>
      show collapseAux false w = w
      have := collapseAux_append w [] false hw hwc
      simpa [collapseAux] using this
    | cons w1 ws'' =>
      rw [joinSp_cons _ _ (by simp), collapseAux_append w _ false hw hwc]
      have hsp : collapseAux false (' ' :: joinSp (w1 :: ws''))
          = ' ' :: collapseAux true (joinSp (w1 :: ws'')) := by
        simp [collapseAux, isJsWs]
      rw [hsp]
      obtain ⟨c, t, hct, hcns⟩ := joinSp_head_nonws (w1 :: ws'') hrest (by simp)
      rw [hct, collapseAux_b_irrel c t hcns, ← hct, ih hrest]

/-- `dropWhile` does nothing when the head fails the test. -/
theorem dropWhile_cons_neg (p : Char → Bool) (c : Char) (l : List Char)
    (h : p c = false) : (c :: l).dropWhile p = c :: l := by
  simp [List.dropWhile, h]

/-- Trimming is the identity on a space-join of good tokens. -/
theorem trimWs_joinSp (ws : List (List Char))
    (h : ∀ w ∈ ws, w ≠ [] ∧ ∀ c ∈ w, isJsWs c = false) :
    trimWs (joinSp ws) = joinSp ws := by
  cases hne : ws with
  | nil => rfl
  | cons w ws' =>
    rw [← hne]
    have hne' : ws ≠ [] := by rw [hne]; simp
    obtain ⟨c, t, hct, hcns⟩ := joinSp_head_nonws ws h hne'
    obtain ⟨c2, t2, hct2, hcns2⟩ := joinSp_reverse_nonws ws h hne'
    unfold trimWs
    rw [hct, dropWhile_cons_neg _ _ _ hcns, ← hct, hct2,
      dropWhile_cons_neg _ _ _ hcns2, ← hct2, List.reverse_reverse]

/-- The leading-number strip is the identity when the first character is
not a digit. -/
theorem stripLeadingNumber_of_first (l : List Char)
    (h : firstIsDigitL l = false) : stripLeadingNumber l = l := by
  cases l with
  | nil => rfl
  | cons c t =>
    have : c.isDigit = false := by simpa [firstIsDigitL] using h
    simp [stripLeadingNumber, this]

/-- `splitSp` never returns an empty token list. -/
theorem splitSp_ne_nil (l : List Char) : splitSp l ≠ [] := by
  induction l with
  | nil => simp [splitSp]
  | cons c rest ih =>
    by_cases h : c = ' '
    · simp [splitSp, h]
    · simp only [splitSp, h, if_false]
      cases hs : splitSp rest with
      | nil => exact absurd hs ih
      | cons w ws => simp [consHead]

/-- Splitting a separator-free list yields that list as the one token. -/
theorem splitSp_no_sep (w : List Char) (h : ∀ c ∈ w, c ≠ ' ') :
    splitSp w = [w] := by
  induction w with
  | nil => rfl
  | cons c w' ih =>
    have hc : c ≠ ' ' := h c (List.mem_cons_self _ _)
    rw [splitSp, if_neg hc, ih (fun x hx => h x (List.mem_cons_of_mem _ hx))]
    rfl

/-- Splitting a separator-free block, a space, then a remainder. -/
theorem splitSp_append (w : List Char) : ∀ l : List Char,
    (∀ c ∈ w, c ≠ ' ') → splitSp (w ++ ' ' :: l) = w :: splitSp l := by
  induction w with
  | nil => intro l _; simp [splitSp]
  | cons c w' ih =>
    intro l hw
    have hc : c ≠ ' ' := hw c (List.mem_cons_self _ _)
    rw [List.cons_append, splitSp, if_neg hc,
      ih l (fun x hx => hw x (List.mem_cons_of_mem _ hx))]
    rfl

/-- Splitting inverts space-joining on non-empty lists of separator-free
tokens. -/
theorem splitSp_joinSp (ws : List (List Char))
    (h : ∀ w ∈ ws, ∀ c ∈ w, c ≠ ' ') (hne : ws ≠ []) :
    splitSp (joinSp ws) = ws := by
  induction ws with
  | nil => exact absurd rfl hne
  | cons w ws' ih =>
    cases ws' with
    | nil => exact splitSp_no_sep w (h w (List.mem_cons_self _ _))
    | cons w1 ws'' =>
      rw [joinSp_cons _ _ (by simp),
        splitSp_append w _ (h w (List.mem_cons_self _ _)),
        ih (fun x hx => h x (List.mem_cons_of_mem _ hx)) (by simp)]

/-- Every character of every token of `splitSp l` is a non-space
character of `l`. -/
theorem splitSp_chars (l : List Char) :
    ∀ w ∈ splitSp l, ∀ c ∈ w, c ∈ l ∧ c ≠ ' ' := by
  induction l with
  | nil =>
    intro w hw c hc
    rw [show splitSp [] = [[]] from rfl] at hw
    rcases List.mem_singleton.mp hw with rfl
    simp at hc
  | cons c0 rest ih =>
    intro w hw c hc
    by_cases h0 : c0 = ' '
    · rw [splitSp, if_pos h0] at hw
      rcases List.mem_cons.mp hw with rfl | hw
      · simp at hc
      · obtain ⟨hcl, hcs⟩ := ih w hw c hc
        exact ⟨List.mem_cons_of_mem _ hcl, hcs⟩
    · rw [splitSp, if_neg h0] at hw
      cases hs : splitSp rest with
      | nil => exact absurd hs (splitSp_ne_nil rest)
      | cons t ts =>
        rw [hs] at hw
        rcases List.mem_cons.mp hw with rfl | hw
        · rcases List.mem_cons.mp hc with rfl | hc
          · exact ⟨List.mem_cons_self _ _, h0⟩
          · obtain ⟨hcl, hcs⟩ := ih t (hs ▸ List.mem_cons_self _ _) c hc
            exact ⟨List.mem_cons_of_mem _ hcl, hcs⟩
        · obtain ⟨hcl, hcs⟩ :=
            ih w (hs ▸ List.mem_cons_of_mem _ hw) c hc
          exact ⟨List.mem_cons_of_mem _ hcl, hcs⟩

/-- The leading-number strip only removes characters. -/
theorem stripLeadingNumber_subset (l : List Char) : stripLeadingNumber l ⊆ l := by
  cases l with
  | nil => simp [stripLeadingNumber]
  | cons c t =>
    simp only [stripLeadingNumber]
    by_cases h : c.isDigit
    · rw [if_pos h]
      exact fun x hx =>
        (List.dropWhile_suffix Char.isDigit).subset
          ((List.dropWhile_suffix isJsWs).subset hx)
    · rw [if_neg h]
      exact fun x hx => hx

/-- Trimming only removes characters. -/
theorem trimWs_subset (l : List Char) : trimWs l ⊆ l := by
  intro c hc
  unfold trimWs at hc
  rw [List.mem_reverse] at hc
  have h1 := (List.dropWhile_suffix isJsWs).subset hc
  rw [List.mem_reverse] at h1
  exact (List.dropWhile_suffix isJsWs).subset h1

/-- Every cleaned title is a space-join of good tokens. -/
theorem cleanChars_shape (l : List Char) :
    ∃ ws, cleanChars l = joinSp ws ∧ ∀ w ∈ ws, goodWord w := by
  refine ⟨(splitSp (trimWs (stripLeadingNumber
      ((collapseWs l).filter keptChar)))).filter (fun w => decide (1 < w.length)),
    rfl, ?_⟩
  intro w hw
  rw [List.mem_filter] at hw
  obtain ⟨hw1, hw2⟩ := hw
  refine ⟨by simpa using hw2, ?_⟩
  intro c hc
  obtain ⟨hcl, hcsp⟩ := splitSp_chars _ w hw1 c hc
  have hc2 : c ∈ stripLeadingNumber ((collapseWs l).filter keptChar) :=
    trimWs_subset _ hcl
  have hc3 : c ∈ (collapseWs l).filter keptChar :=
    stripLeadingNumber_subset _ hc2
  rw [List.mem_filter] at hc3
  refine ⟨hc3.2, ?_⟩
  rcases mem_collapseAux (show c ∈ collapseAux false l from hc3.1) with rfl | hns
  · exact absurd rfl hcsp
  · exact hns.2

/-- The cleanup pipeline is the identity on a space-join of good tokens
that does not start with a digit. -/
theorem cleanChars_joinSp (ws : List (List Char)) (h : ∀ w ∈ ws, goodWord w)
    (hd : firstIsDigitL (joinSp ws) = false) :
    cleanChars (joinSp ws) = joinSp ws := by
  cases hws : ws with
  | nil => rfl
  | cons w0 ws0 =>
    rw [← hws]
    have hne : ws ≠ [] := by rw [hws]; simp
    have hword : ∀ w ∈ ws, w ≠ [] ∧ ∀ c ∈ w, isJsWs c = false := by
      intro w hw
      obtain ⟨hlen, hchars⟩ := h w hw
      refine ⟨?_, fun c hc => (hchars c hc).2⟩
      intro hwnil
      rw [hwnil] at hlen
      simp at hlen
    have hnosp : ∀ w ∈ ws, ∀ c ∈ w, c ≠ ' ' := by
      intro w hw c hc heq
      have hcw := (h w hw).2 c hc
      rw [heq] at hcw
      exact absurd hcw.2 (by decide)
    have hkept : ∀ c ∈ joinSp ws, keptChar c = true := by
      intro c hc
      rcases mem_joinSp hc with rfl | ⟨w, hw, hcw⟩
      · decide
      · exact ((h w hw).2 c hcw).1
    unfold cleanChars
    rw [show collapseWs (joinSp ws) = joinSp ws from collapseWs_joinSp ws hword,
      List.filter_eq_self.mpr hkept,
      stripLeadingNumber_of_first _ hd, trimWs_joinSp ws hword,
      splitSp_joinSp ws hnosp hne,
      List.filter_eq_self.mpr (fun w hw => decide_eq_true (h w hw).1)]

/- ### Claim C2 -/

/-- Claim C2 is false as stated: cleaning `"x 12ab"` drops the
single-character token `"x"`, exposing the token `"12ab"` at the front,
so a second cleaning strips its leading digits:
`cleanBookTitle (cleanBookTitle "x 12ab") = "ab" ≠ "12ab"`. -/
theorem cleanBookTitle_not_idem :
    cleanBookTitle (cleanBookTitle "x 12ab") ≠ cleanBookTitle "x 12ab" := by
  decide

/-- Claim C2 (amended): `cleanBookTitle` is idempotent on every string
whose cleaned result does not start with a decimal digit (dropping
single-character tokens can expose a later token that starts with
digits; on such strings a second application also strips that digit
run). -/
theorem cleanBookTitle_idem (s : String)
    (h : firstIsDigit (cleanBookTitle s) = false) :
    cleanBookTitle (cleanBookTitle s) = cleanBookTitle s := by
  obtain ⟨ws, hws, hgood⟩ := cleanChars_shape s.data
  have hl : cleanChars (cleanChars s.data) = cleanChars s.data := by
    rw [hws]
    refine cleanChars_joinSp ws hgood ?_
    rw [← hws]
    exact h
  exact congrArg String.mk hl

/-- Witness for the amended claim C2 at `"Harry Potter"`. -/
theorem cleanBookTitle_idem_witness :
    cleanBookTitle (cleanBookTitle "Harry Potter") = cleanBookTitle "Harry Potter" :=
  cleanBookTitle_idem "Harry Potter" (by decide)

/- ### Claim C7 -/

/-- Claim C7 is false as stated: the strip keeps the regex class `\w`,
which contains the underscore, so `cleanBookTitle "ab_cd" = "ab_cd"`
contains a character outside the claimed set. -/
theorem cleanBookTitle_charset_counterexample :
    ¬ (∀ (s : String), ∀ c ∈ (cleanBookTitle s).data,
        claimedTitleChar c = true) := by
  intro h
  exact absurd (h "ab_cd" '_' (by decide)) (by decide)

/-- Claim C7 (amended): every character of a cleaned title is an ASCII
letter, a digit, one of space, hyphen, colon, ampersand, apostrophe,
period, comma — or an underscore (kept because the strip keeps the
whole of `\w`). -/
theorem cleanBookTitle_charset (s : String) (c : Char)
    (hc : c ∈ (cleanBookTitle s).data) :
    (claimedTitleChar c || decide (c = '_')) = true := by
  obtain ⟨ws, hws, hgood⟩ := cleanChars_shape s.data
  have hc' : c ∈ joinSp ws := by
    rw [← hws]
    exact hc
  rcases mem_joinSp hc' with rfl | ⟨w, hw, hcw⟩
  · decide
  · obtain ⟨hk, hns⟩ := (hgood w hw).2 c hcw
    simp only [keptChar, isWordChar, hns, Bool.or_eq_true, Bool.or_false,
      Bool.false_or, decide_eq_true_eq] at hk
    simp only [claimedTitleChar, Bool.or_eq_true, decide_eq_true_eq]
    tauto

/-- Witness for the amended claim C7 at the first character of the
cleaned `"Harry"`. -/
theorem cleanBookTitle_charset_witness :
    (claimedTitleChar 'H' || decide ('H' = '_')) = true :=
  cleanBookTitle_charset "Harry" 'H' (by decide)

end AdvancedOCR
